import Mathlib

/-!
Verification of the GhostText-Any editing-session engine against its
natural-language specification.

The Rust sources are shallowly embedded:
* strings are modelled as `List Char` (Rust `String` is valid UTF-8, so a
  byte-level operation that only ever touches ASCII patterns corresponds
  exactly to the char-level operation used here);
* `SystemTime` values are modelled as `Nat` timestamps;
* the SHA-256 digest (external `sha2` crate) is treated as an arbitrary
  function parameter `hashFn`: every claim about the mirror is stated at the
  level of digest equality, exactly as the source compares digests;
* filesystem paths are modelled as the list of their components.
-/

namespace GhostTextAny

/-! ## Local file mirror — src/server/file.rs -/

structure RangeInText where
  start : Nat
  /-- Source field name: end (a reserved word here). -/
  stop : Nat
  deriving Repr, DecidableEq

/-- Message `msg::GetTextFromComponent` (src/server/msg.rs).
The source also carries a `syntax` field (a reserved word here); it is unused
by every function embedded in this file and is omitted. -/
structure GetTextFromComponent where
  selections : List RangeInText
  text : String
  title : String
  url : String
  deriving Repr

/-- State of one `LocalFile` mirror together with the bytes and modification
time of the file it points at.  `hash` and `last_edit` are the struct fields
of `LocalFile`; `file_content` / `file_mtime` model the on-disk file. -/
structure LocalFile where
  /-- Hash of the local content, trailing newline removed (source field `hash`). -/
  hash : Nat
  /-- Last edit time the hash is valid for (source field `last_edit`). -/
  last_edit : Nat
  /-- Bytes currently in the file (modelled as chars). -/
  file_content : List Char
  /-- Current modification time of the file. -/
  file_mtime : Nat
  deriving Repr, DecidableEq

/-- `LocalFile::write` (file.rs lines 82-90): truncate the file, write
`m.text` then exactly one newline byte, then `update_local_md` records the
file's modification time into `last_edit` and the hash of `text` into
`hash`.  `now` is the modification time the filesystem assigns. -/
def LocalFile.write (hashFn : List Char → Nat) (_s : LocalFile)
    (m : GetTextFromComponent) (now : Nat) : LocalFile where
  hash := hashFn m.text.toList
  last_edit := now
  file_content := m.text.toList ++ ['\n']
  file_mtime := now

/-- `LocalFile::is_equivalent` (file.rs lines 109-115): the stored
`last_edit` equals the file's current modification time and the digest of
the remote text equals the stored digest. -/
def LocalFile.is_equivalent (hashFn : List Char → Nat) (s : LocalFile)
    (m : GetTextFromComponent) : Bool :=
  s.last_edit == s.file_mtime && hashFn m.text.toList == s.hash

/-- `LocalFile::maybe_update` (file.rs lines 63-72): skip the write and
return `false` when `is_equivalent`, otherwise `write` and return `true`. -/
def LocalFile.maybe_update (hashFn : List Char → Nat) (s : LocalFile)
    (m : GetTextFromComponent) (now : Nat) : LocalFile × Bool :=
  if s.is_equivalent hashFn m then (s, false)
  else (s.write hashFn m now, true)

/-- Contents `LocalFile::write` puts in the file: the text plus exactly one
trailing newline (file.rs lines 82-90). -/
def writtenContent (text : List Char) : List Char :=
  text ++ ['\n']

/-- `LocalFile::read` (file.rs lines 92-101): read the whole file and strip
one trailing newline if present (`text.pop()` removes the last char). -/
def readBack (content : List Char) : List Char :=
  if content.getLast? = some '\n' then content.dropLast else content

/-! ### Mirror path construction — `LocalFile::create` (file.rs lines 41-57)

`create` builds the path with

  let mut path = PathBuf::from(tempdir.path());
  path.set_file_name(get_filename(m));

Paths are modelled as their list of components (the implicit root is shared
by all paths considered).  `TempDir::new("ghost-text")` yields a fresh
directory, e.g. components `["tmp", "ghost-text.abc123"]`. -/

/-- Rust `PathBuf::set_file_name` on a path that has a final component:
the final component is replaced by `name`. -/
def set_file_name (p : List String) (name : String) : List String :=
  p.dropLast ++ [name]

/-- `determine_file_extension` (file.rs lines 151-175).  `Url::parse` is an
external crate; its outcome is passed in as `host`: `none` models a parse
error or a non-domain host, `some labels` the domain split on dots. -/
def determine_file_extension (host : Option (List String)) : String :=
  match host with
  | none => "txt"
  | some labels =>
    if ["github", "com"] <:+ labels ∨ ["gitlab", "com"] <:+ labels
        ∨ ["codeberg", "org"] <:+ labels then "md"
    else "txt"

/-- UTF-8 byte length of one scalar value (Rust `char::len_utf8`). -/
def utf8LenChar (c : Char) : Nat :=
  if c.toNat < 0x80 then 1
  else if c.toNat < 0x800 then 2
  else if c.toNat < 0x10000 then 3
  else 4

/-- UTF-8 byte length of a string (Rust `str::len`). -/
def utf8Len (l : List Char) : Nat :=
  (l.map utf8LenChar).sum

/-- `get_filename` (file.rs lines 130-149): truncate the title to its first
16 chars when its byte length exceeds 16 and a 17th char exists, replace the
bad chars with a dash, default to "buffer" when the title is empty, and
append a dot and the extension. -/
def get_filename (title : List Char) (extension : String) : List Char :=
  let bad : List Char := [' ', '/', '\\', '\r', '\n', '\t']
  let base :=
    if title = [] then "buffer".toList
    else
      let t := if utf8Len title > 16 ∧ 16 < title.length then title.take 16 else title
      t.map fun c => if c ∈ bad then '-' else c
  base ++ ('.' :: extension.toList)

/-- The path at which `LocalFile::create` (file.rs lines 41-57) creates the
mirror file, given the components of the fresh temporary directory and the
parse outcome of `m.url`. -/
def createFilePath (tempdirPath : List String) (m : GetTextFromComponent)
    (host : Option (List String)) : List String :=
  set_file_name tempdirPath
    (String.mk (get_filename m.title.toList (determine_file_extension host)))

/-- Dropping a `TempDir` recursively deletes the directory: exactly the
paths having the directory's components as a prefix are removed. -/
def tempdirDropRemoves (tempdirPath p : List String) : Bool :=
  tempdirPath.isPrefixOf p

/-! ## Editor command synthesis — src/server/editor.rs -/

/-- First index at which `pat` occurs in `s` (Rust `str::find` with a string
pattern; the patterns used are ASCII, so byte and char indices coincide). -/
def findSub (s pat : List Char) : Option Nat :=
  if pat.isPrefixOf s then some 0
  else
    match s with
    | [] => none
    | _ :: s' => (findSub s' pat).map (· + 1)

/-- Rust `str::contains` with a string pattern. -/
def containsSub (s pat : List Char) : Bool :=
  (findSub s pat).isSome

/-- `replace_in_place` (editor.rs lines 89-97): replace the FIRST occurrence
of `pattern` in `source` (via `str::find` and `replace_range`), returning
whether a replacement happened. -/
def replace_in_place (source pattern replacement : List Char) :
    List Char × Bool :=
  match findSub source pattern with
  | none => (source, false)
  | some start =>
    (source.take start ++ replacement ++ source.drop (start + pattern.length),
     true)

/-- `format_known_editors` (editor.rs lines 102-118): fixed table from the
editor token to its idiomatic positional arguments. -/
def format_known_editors (editor file : List Char) (line col : Nat) :
    Option (List (List Char)) :=
  let ls := (Nat.repr line).toList
  let cs := (Nat.repr col).toList
  if editor = "vi".toList ∨ editor = "vim".toList ∨ editor = "nvim".toList then
    some [('+' :: ls), ("+norm! ".toList ++ cs ++ ['|']), file]
  else if editor = "emacs".toList ∨ editor = "emacsclient".toList
      ∨ editor = "gedit".toList ∨ editor = "kak".toList then
    some [('+' :: ls ++ ':' :: cs), file]
  else if editor = "nano".toList then
    some [('+' :: ls ++ ',' :: cs), file]
  else if editor = "joe".toList ∨ editor = "ee".toList then
    some [('+' :: ls), file]
  else if editor = "code".toList ∨ editor = "code-oss".toList then
    some ["--goto".toList, (file ++ ':' :: ls ++ ':' :: cs), "--wait".toList]
  else if editor = "subl".toList then
    some [(file ++ ':' :: ls ++ ':' :: cs), "--wait".toList]
  else if editor = "micro".toList then
    some [file, ('+' :: ls ++ ':' :: cs)]
  else none

/-- Placeholder substitution applied to one token after the first
(editor.rs lines 75-79): first occurrence of "%f", then of "%l", then of
"%c", each replaced once by `replace_in_place`. -/
def substToken (s file : List Char) (line col : Nat) : List Char :=
  let s1 := (replace_in_place s "%f".toList file).1
  let s2 := (replace_in_place s1 "%l".toList (Nat.repr line).toList).1
  (replace_in_place s2 "%c".toList (Nat.repr col).toList).1

/-- Whether a token contains one of the three placeholders
(editor.rs lines 67-71). -/
def hasPlaceholder (s : List Char) : Bool :=
  containsSub s "%f".toList || containsSub s "%l".toList
    || containsSub s "%c".toList

/-- `perform_substitutions` (editor.rs lines 61-87).  The caller
(`spawn_editor`) bails out on an empty token list before calling this, so
the empty case (where the source would index `command[command.len() - 1]`)
is unreachable; it is mapped to the unchanged empty list here and every
theorem below assumes a non-empty command. -/
def perform_substitutions (command : List (List Char)) (file : List Char)
    (line col : Nat) : List (List Char) :=
  match command with
  | [] => []
  | c0 :: rest =>
    if rest.any hasPlaceholder then
      c0 :: rest.map fun s => substToken s file line col
    else
      let editor := (c0 :: rest).getLast (by simp)
      match format_known_editors editor file line col with
      | some additions => (c0 :: rest) ++ additions
      | none => (c0 :: rest) ++ [file]

/-! ## Cursor mapper — src/server/text.rs -/

/-- UTF-16 code units of one scalar value (Rust `char::encode_utf16`). -/
def encodeUtf16Char (c : Char) : List Nat :=
  if c.toNat < 0x10000 then [c.toNat]
  else
    [0xD800 + (c.toNat - 0x10000) / 0x400, 0xDC00 + (c.toNat - 0x10000) % 0x400]

/-- UTF-16 code units of a string (Rust `str::encode_utf16`). -/
def encodeUtf16 (l : List Char) : List Nat :=
  l.flatMap encodeUtf16Char

/-- UTF-16 code-unit length of one scalar value. -/
def utf16LenChar (c : Char) : Nat :=
  if c.toNat < 0x10000 then 1 else 2

/-- UTF-16 code-unit length of a string. -/
def utf16Len (l : List Char) : Nat :=
  (l.map utf16LenChar).sum

/-- The main scanning loop of `utf16_offset_to_utf8_line_col` (text.rs
lines 13-31).  `rem` counts how many units are still strictly before the
requested offset (the source compares the running index `i` with `offset`);
`line`, `col` and `lastLine` are the mutable locals `line`, `utf16_col` and
`last_line`.  In the post-offset phase the loop pushes units onto
`last_line` until a newline unit ends it. -/
def loopGo : List Nat → Nat → Nat → Nat → List Nat → Nat × Nat × List Nat
  | [], _, line, col, lastLine => (line, col, lastLine)
  | u :: us, rem, line, col, lastLine =>
    if rem ≠ 0 then
      if u = 10 then loopGo us (rem - 1) (line + 1) 1 []
      else loopGo us (rem - 1) line (col + 1) (lastLine ++ [u])
    else
      if u = 10 then (line, col, lastLine)
      else loopGo us 0 line col (lastLine ++ [u])

/-- Rust `char::decode_utf16`: a lone unit outside the surrogate range
decodes to that scalar; a high surrogate followed by a low surrogate decodes
to the combined scalar; an unpaired surrogate yields an error carrying the
unit, and a unit following an unpaired high surrogate is reprocessed. -/
def decodeUtf16 : List Nat → List (Except Nat Char)
  | [] => []
  | u :: us =>
    if u < 0xD800 ∨ 0xDFFF < u then
      Except.ok (Char.ofNat u) :: decodeUtf16 us
    else if u < 0xDC00 then
      match us with
      | [] => [Except.error u]
      | u2 :: us2 =>
        if 0xDC00 ≤ u2 ∧ u2 ≤ 0xDFFF then
          Except.ok (Char.ofNat (0x10000 + (u - 0xD800) * 0x400 + (u2 - 0xDC00)))
            :: decodeUtf16 us2
        else
          Except.error u :: decodeUtf16 (u2 :: us2)
    else
      Except.error u :: decodeUtf16 us

/-- Rust `String::from_utf16`: succeeds exactly when decoding yields no
unpaired surrogate, returning the decoded scalars. -/
def fromUtf16 (units : List Nat) : Option (List Char) :=
  let r := decodeUtf16 units
  if r.all fun e => e.toOption.isSome then
    some (r.filterMap Except.toOption)
  else none

/-- Rust `Iterator::rposition` specialised to "is an Ok result": index of
the last Ok, if any. -/
def rpositionOk : List (Except Nat Char) → Option Nat
  | [] => none
  | r :: rs =>
    match rpositionOk rs with
    | some i => some (i + 1)
    | none => if r.toOption.isSome then some 0 else none

/-- Weight the source assigns to one decode result when backtracking over an
invalid cursor prefix (text.rs lines 72-81): UTF-8 length for a scalar, 1
for an error unit below 127, else 2. -/
def decodeResultWidth : Except Nat Char → Nat
  | Except.ok c => utf8LenChar c
  | Except.error w => if w < 127 then 1 else 2

/-- `utf16_offset_to_utf8_line_col` (text.rs lines 4-88): convert the
browser's 0-based UTF-16 offset to 1-based line and UTF-8-byte column. -/
def utf16_offset_to_utf8_line_col (offset : Nat) (text : List Char) :
    Nat × Nat :=
  let r := loopGo (encodeUtf16 text) offset 1 1 []
  let line := r.1
  let utf16_col := r.2.1
  let last_line := r.2.2
  if utf16_col = 1 then (line, 1)
  else
    let to_cursor := last_line.take (utf16_col - 1)
    match fromUtf16 to_cursor with
    | some s => (line, utf8Len s + 1)
    | none =>
      let decode_results := decodeUtf16 to_cursor
      let trailing_err :=
        match rpositionOk decode_results with
        | some i => i + 1
        | none => decode_results.length
      (line, ((decode_results.take trailing_err).map decodeResultWidth).sum + 1)

/-- Characters of `l` after its last newline (the content of the source
loop's `last_line` buffer at hand-off time, at char level). -/
def afterLastNl : List Char → List Char
  | [] => []
  | c :: l' =>
    if '\n' ∈ l' then afterLastNl l'
    else if c = '\n' then l'
    else c :: l'

/-- Number of newline characters in `l`. -/
def countNl (l : List Char) : Nat :=
  l.count '\n'

/-! ## Debounce operator — src/debounce.rs

`Debounce::poll_next` is embedded as a function of
* the buffered item `last` (field `last: Option<S::Item>`),
* the pending poll results of the fused source, given as a finite script of
  entries (`item x` for `Poll::Ready(Some(x))`, `pend` for `Poll::Pending`);
  the script's end models source completion: a fused stream returns
  `Poll::Ready(None)` on every poll past the end,
* whether the deadline timer has elapsed at this poll (`dl`), and
* whether the wait duration is zero.

It returns the poll result, the new buffer, and the remaining script. -/

/-- One pending source poll outcome. -/
inductive SourcePoll (α : Type) where
  | item (x : α)
  | pend
  deriving Repr, DecidableEq

/-- Result of one `poll_next` call. -/
inductive PollRes (α : Type) where
  /-- `Poll::Ready(v)`; `ready none` ends the stream. -/
  | ready (v : Option α)
  /-- `Poll::Pending`. -/
  | pending
  deriving Repr, DecidableEq

/-- `Debounce::poll_next` (debounce.rs lines 52-81). -/
def pollNext {α : Type} (isZero : Bool) (last : Option α) (dl : Bool) :
    List (SourcePoll α) → PollRes α × Option α × List (SourcePoll α)
  | [] =>
    -- source returns Ready(None): return Ready(last.take())
    (PollRes.ready last, none, [])
  | SourcePoll.item x :: rest =>
    if isZero then (PollRes.ready (some x), last, rest)
    else
      -- store the item, re-arm the deadline, keep draining
      pollNext isZero (some x) dl rest
  | SourcePoll.pend :: rest =>
    -- source is Pending; flush the buffer when the deadline elapsed
    if last.isSome && dl then (PollRes.ready last, none, rest)
    else (PollRes.pending, last, rest)

/-- Drive `poll_next` to stream end, collecting the emitted items: the
behaviour of an executor that re-polls whenever the stream is pending,
supplying the deadline state `dl n` at the n-th poll.  `fuel` bounds the
number of polls; `none` means the fuel ran out. -/
def collectDebounce {α : Type} (isZero : Bool) (dl : Nat → Bool) :
    Nat → Nat → Option α → List (SourcePoll α) → Option (List α)
  | 0, _, _, _ => none
  | fuel + 1, n, last, script =>
    match pollNext isZero last (dl n) script with
    | (PollRes.ready none, _, _) => some []
    | (PollRes.ready (some x), last', rest) =>
      (collectDebounce isZero dl fuel (n + 1) last' rest).map (x :: ·)
    | (PollRes.pending, last', rest) =>
      collectDebounce isZero dl fuel (n + 1) last' rest

/-- Items a source script makes available, in order. -/
def scriptItems {α : Type} (script : List (SourcePoll α)) : List α :=
  script.filterMap fun s =>
    match s with
    | SourcePoll.item x => some x
    | SourcePoll.pend => none

/-! ## Session loop — src/server.rs, `handle_websocket` (lines 170-211)

The Active loop multiplexes three sources with `futures::select!`.  The
embedding keeps one queue per source (pending file-change notifications and
pending websocket messages) plus a schedule saying which ready source the
select picks at each iteration; the editor future completes when the
schedule says so.  Sends on the outbound channel are modelled as always
succeeding (their failure paths are not at issue in any claim). -/

/-- An inbound websocket item as the loop observes it: `Ok` text (carrying
the `serde_json` parse outcome), `Ok` non-text, or `Err`. -/
inductive WsEvent where
  | okText (parsed : Option GetTextFromComponent)
  | okOther
  | wsErr

/-- A file-watch stream item: `Ok(())` or an inotify error. -/
inductive EditEvent where
  | modified
  | editErr
  deriving Repr, DecidableEq

/-- Which branch of the `select!` fires at one loop iteration. -/
inductive Choice where
  | chEditor
  | chEdit
  | chMsg
  deriving Repr, DecidableEq

/-- Mutable state of the loop: the cursors and the mirror file's content. -/
structure SessionState where
  cursors : List RangeInText
  file : List Char

/-- `init_file` (server.rs lines 240-247): write the text, appending a
newline only when the text does not already end with one. -/
def init_file (text : List Char) : List Char :=
  if text.getLast? = some '\n' then text else text ++ ['\n']

/-- `current_file_contents` (server.rs lines 453-461): read the file and
strip one trailing newline if present. -/
def current_file_contents (content : List Char) : List Char :=
  if content.getLast? = some '\n' then content.dropLast else content

/-- One outbound `SetTextInComponent` message (text and selections). -/
structure Snapshot where
  text : List Char
  selections : List RangeInText

/-- How a session run ends. -/
inductive SessionOutcome where
  /-- The editor completed: the loop broke, the final snapshot was sent and
  `Ok(())` returned; `sent` lists every snapshot sent, in order. -/
  | done (sent : List Snapshot)
  /-- A `?` propagated an error out of the loop: no further snapshot is
  sent, the connection is torn down. -/
  | errored (sent : List Snapshot)
  /-- The schedule or a queue was exhausted with the loop still waiting. -/
  | outOfEvents (sent : List Snapshot)

/-- The snapshot `send_current_file_contents` builds from the current
state. -/
def snapshotOf (st : SessionState) : Snapshot :=
  { text := current_file_contents st.file, selections := st.cursors }

/-- The Active loop of `handle_websocket` (server.rs lines 170-211) plus the
final send after the loop (line 207).  `sched` picks the ready branch per
iteration, `edits` and `msgs` are the pending items of the two streams,
`acc` the snapshots sent so far. -/
def sessionLoop : List Choice → List EditEvent → List WsEvent →
    SessionState → List Snapshot → SessionOutcome
  | [], _, _, _, acc => SessionOutcome.outOfEvents acc
  | Choice.chEditor :: _, _, _, st, acc =>
    -- editor future completed: break, then send the final snapshot
    SessionOutcome.done (acc ++ [snapshotOf st])
  | Choice.chEdit :: sched, edits, msgs, st, acc =>
    match edits with
    | [] => SessionOutcome.outOfEvents acc
    | EditEvent.modified :: es =>
      -- Ok(_): send the current file contents
      sessionLoop sched es msgs st (acc ++ [snapshotOf st])
    | EditEvent.editErr :: es =>
      -- Err(e): logged, loop continues
      sessionLoop sched es msgs st acc
  | Choice.chMsg :: sched, edits, msgs, st, acc =>
    match msgs with
    | [] => SessionOutcome.outOfEvents acc
    | WsEvent.okOther :: ms =>
      -- non-text message: logged and ignored
      sessionLoop sched edits ms st acc
    | WsEvent.wsErr :: ms =>
      -- websocket error: logged, loop continues
      sessionLoop sched edits ms st acc
    | WsEvent.okText none :: _ =>
      -- text that fails to parse: `?` leaves the loop with an error
      SessionOutcome.errored acc
    | WsEvent.okText (some req) :: ms =>
      -- parsed update: record cursors, rewrite the file, then await and
      -- drop the next file-change notification (logged when an error)
      match edits with
      | [] => SessionOutcome.outOfEvents acc
      | _ :: es =>
        sessionLoop sched es ms
          { cursors := req.selections, file := init_file req.text.toList } acc

/-! ## Idle shutdown counter — src/server.rs, `idle_timeout` (lines 469-500) -/

/-- A `ThreadStatus` event (server.rs lines 464-467). -/
inductive ThreadStatusEv where
  | started
  | finished
  deriving Repr, DecidableEq

/-- The counter mutation of `idle_timeout`: `alive_count += 1` on Started,
`alive_count -= 1` on Finished (`alive_count` is a usize; the embedding uses
truncated Nat subtraction, and the claim theorem shows the subtraction never
truncates under the stated event-order hypothesis). -/
def idleStep (count : Nat) : ThreadStatusEv → Nat
  | ThreadStatusEv.started => count + 1
  | ThreadStatusEv.finished => count - 1

/-- `alive_count` after processing `evs`, starting from 0. -/
def aliveCount (evs : List ThreadStatusEv) : Nat :=
  evs.foldl idleStep 0

/-- Number of SessionStarted events. -/
def countStarted (evs : List ThreadStatusEv) : Nat :=
  evs.count ThreadStatusEv.started

/-- Number of SessionFinished events. -/
def countFinished (evs : List ThreadStatusEv) : Nat :=
  evs.count ThreadStatusEv.finished

/-! ## Theorems -/

/-- Claim C10: create-then-read round trip is the identity on the text: for
every text, including the empty string and texts already ending in a
newline, writing the mirror (text plus exactly one newline) and reading it
back (stripping exactly one trailing newline if present) returns the
original text unchanged. -/
theorem write_read_roundtrip (t : List Char) :
    readBack (writtenContent t) = t := by
  unfold readBack writtenContent
  rw [if_pos, List.dropLast_concat]
  rw [List.getLast?_concat]

/-- Claim C2: `maybe_update` returns `false` and performs no write exactly
when the digest of the incoming text equals the stored digest and the
file's current modification time equals the stored one; in every other case
it performs the full write (text plus one newline, digest and modification
time re-recorded) and returns `true`. -/
theorem maybe_update_spec (hashFn : List Char → Nat) (s : LocalFile)
    (m : GetTextFromComponent) (now : Nat) :
    (LocalFile.maybe_update hashFn s m now = (s, false) ↔
      hashFn m.text.toList = s.hash ∧ s.file_mtime = s.last_edit)
    ∧ (¬(hashFn m.text.toList = s.hash ∧ s.file_mtime = s.last_edit) →
      LocalFile.maybe_update hashFn s m now = (s.write hashFn m now, true)) := by
  have hiff : s.is_equivalent hashFn m = true ↔
      hashFn m.text.toList = s.hash ∧ s.file_mtime = s.last_edit := by
    simp only [LocalFile.is_equivalent, Bool.and_eq_true, beq_iff_eq]
    constructor
    · rintro ⟨h1, h2⟩; exact ⟨h2, h1.symm⟩
    · rintro ⟨h1, h2⟩; exact ⟨h2.symm, h1⟩
  constructor
  · constructor
    · intro h
      by_contra hc
      rw [← hiff, Bool.not_eq_true] at hc
      simp only [LocalFile.maybe_update, hc, Bool.false_eq_true, if_false,
        Prod.mk.injEq] at h
      exact Bool.noConfusion h.2
    · intro h
      simp only [LocalFile.maybe_update, hiff.mpr h, if_true]
  · intro h
    rw [← hiff, Bool.not_eq_true] at h
    simp only [LocalFile.maybe_update, h, Bool.false_eq_true, if_false]

/-- Witness for C2: a concrete state whose digest and modification time
match the incoming message, on which `maybe_update` skips the write. -/
theorem maybe_update_spec_witness :
    LocalFile.maybe_update (fun l => l.length)
      ⟨2, 3, "hi\n".toList, 3⟩ ⟨[], "hi", "t", "u"⟩ 7
    = (⟨2, 3, "hi\n".toList, 3⟩, false) :=
  (maybe_update_spec (fun l => l.length) _ _ 7).1.mpr ⟨by decide, rfl⟩

/-- With zero wait, one poll on an available item emits it at once. -/
theorem collectDebounce_zero_item {α : Type} (dl : Nat → Bool)
    (fuel n : Nat) (x : α) (rest : List (SourcePoll α)) :
    collectDebounce true dl (fuel + 1) n none (SourcePoll.item x :: rest)
      = (collectDebounce true dl fuel (n + 1) none rest).map (x :: ·) := rfl

/-- With an empty buffer, a pending source poll just re-polls. -/
theorem collectDebounce_zero_pend {α : Type} (dl : Nat → Bool)
    (fuel n : Nat) (rest : List (SourcePoll α)) :
    collectDebounce true dl (fuel + 1) n none (SourcePoll.pend :: rest)
      = collectDebounce true dl fuel (n + 1) none rest := rfl

/-- Claim C7: with zero wait the debounce operator is the identity: driving
`poll_next` over any finite source script emits exactly the source's items
in order, each immediately, ending when the source ends. -/
theorem debounce_zero_identity {α : Type} (script : List (SourcePoll α))
    (dl : Nat → Bool) (n : Nat) :
    collectDebounce true dl (script.length + 1) n none script
      = some (scriptItems script) := by
  induction script generalizing n with
  | nil => rfl
  | cons s rest ih =>
    cases s with
    | item x =>
      rw [List.length_cons, collectDebounce_zero_item, ih (n + 1)]
      rfl
    | pend =>
      rw [List.length_cons, collectDebounce_zero_pend, ih (n + 1)]
      rfl

/-- The spec's example for C7: source 1..=5 with zero wait yields
[1, 2, 3, 4, 5]. -/
theorem debounce_zero_example :
    collectDebounce true (fun _ => false) 6 0 none
      ((List.range 5).map fun k => SourcePoll.item (k + 1))
      = some [1, 2, 3, 4, 5] := by decide

/-- Claim C6: completion handling of the debounce with nonzero wait.  When
the fused source completes (every poll past the script's end returns
completion) with an item buffered, that item is emitted exactly once more
and the stream ends; with the buffer empty the stream ends immediately; and
an item already flushed by an elapsed deadline is not re-emitted at the
subsequent completion check. -/
theorem debounce_completion {α : Type} (x : α) (dl : Nat → Bool)
    (n fuel : Nat) (hdl : dl n = true) :
    (collectDebounce false dl (fuel + 2) n (some x) [] = some [x])
    ∧ (collectDebounce false dl (fuel + 1) n (none : Option α) [] = some [])
    ∧ (collectDebounce false dl (fuel + 2) n (some x) [SourcePoll.pend]
        = some [x]) := by
  refine ⟨?_, rfl, ?_⟩
  · simp only [collectDebounce, pollNext]
    rfl
  · simp only [collectDebounce, pollNext, hdl, Option.isSome_some,
      Bool.and_self, if_true]
    rfl

/-- Witness for C6 at a concrete item, deadline schedule and fuel. -/
theorem debounce_completion_witness :
    (collectDebounce false (fun _ => true) 2 0 (some 7) [] = some [7])
    ∧ (collectDebounce false (fun _ => true) 1 0 (none : Option Nat) []
        = some [])
    ∧ (collectDebounce false (fun _ => true) 2 0 (some 7) [SourcePoll.pend]
        = some [7]) :=
  debounce_completion 7 (fun _ => true) 0 0 rfl

/-- Claim C8: in the Active session loop, a non-text inbound message is
logged and ignored — the loop continues in the same state having sent
nothing — while a text message that fails to parse ends the session by
error: no further snapshot (in particular no final one) is sent and the
connection is torn down. -/
theorem session_inbound_handling (sched : List Choice)
    (edits : List EditEvent) (ms : List WsEvent) (st : SessionState)
    (acc : List Snapshot) :
    (sessionLoop (Choice.chMsg :: sched) edits (WsEvent.okOther :: ms) st acc
      = sessionLoop sched edits ms st acc)
    ∧ (sessionLoop (Choice.chMsg :: sched) edits (WsEvent.okText none :: ms)
        st acc = SessionOutcome.errored acc) :=
  ⟨rfl, rfl⟩

/-- Claim C1 (code bug): evaluated at a concrete request, the path built by
`LocalFile::create` replaces the temporary directory's final component
instead of descending into it (`set_file_name` on the tempdir path), so the
mirror file is a sibling of the temporary directory, and dropping the
tempdir removes the directory but not the mirror file. -/
theorem create_path_escapes_tempdir :
    createFilePath ["tmp", "ghost-text.abc123"]
      { selections := [], text := "hello", title := "", url := "" } none
      = ["tmp", "buffer.txt"]
    ∧ tempdirDropRemoves ["tmp", "ghost-text.abc123"] ["tmp", "buffer.txt"]
      = false
    ∧ tempdirDropRemoves ["tmp", "ghost-text.abc123"]
        ["tmp", "ghost-text.abc123"] = true := by
  refine ⟨?_, by decide, by decide⟩
  rfl

/-- Claim C3 (amended): when some token after the first contains a
placeholder, every token after the first has its FIRST occurrence of "%f",
then of "%l", then of "%c" replaced (file path, line, column), and no extra
file-path argument is appended (the token count is unchanged). -/
theorem perform_substitutions_placeholder (c0 : List Char)
    (rest : List (List Char)) (file : List Char) (line col : Nat)
    (h : rest.any hasPlaceholder = true) :
    perform_substitutions (c0 :: rest) file line col
      = c0 :: rest.map (fun s => substToken s file line col)
    ∧ (perform_substitutions (c0 :: rest) file line col).length
      = (c0 :: rest).length := by
  have he : perform_substitutions (c0 :: rest) file line col
      = c0 :: rest.map (fun s => substToken s file line col) := by
    simp only [perform_substitutions]
    rw [if_pos h]
  exact ⟨he, by rw [he]; simp⟩

/-- Counterexample to C3 as stated: with a second occurrence of "%f" in a
token, only the first is replaced; "%f" survives in the output although the
claim demands every occurrence be replaced. -/
theorem perform_substitutions_first_occurrence_only :
    perform_substitutions ["x".toList, "%f %f".toList] "F".toList 3 5
      = ["x".toList, "F %f".toList]
    ∧ containsSub "F %f".toList "%f".toList = true := by decide

/-- Witness for C3: the spec's own example, template "code %f --wait". -/
theorem perform_substitutions_placeholder_witness :
    perform_substitutions ["code".toList, "%f".toList, "--wait".toList]
      "/tmp/x.txt".toList 3 5
      = ["code".toList, "/tmp/x.txt".toList, "--wait".toList] :=
  ((perform_substitutions_placeholder "code".toList
    ["%f".toList, "--wait".toList] "/tmp/x.txt".toList 3 5 (by decide)).1).trans
    (by decide)

/-- Claim C4 (amended): when no token after the first contains a
placeholder, the LAST token — compared verbatim, not by base name — selects
the known-editor table entry whose arguments are appended; when it matches
no entry, the file path is appended once as the last argument. -/
theorem perform_substitutions_known_editor (c0 : List Char)
    (rest : List (List Char)) (file : List Char) (line col : Nat)
    (h : rest.any hasPlaceholder = false) :
    (∀ additions,
      format_known_editors ((c0 :: rest).getLast (by simp)) file line col
        = some additions →
      perform_substitutions (c0 :: rest) file line col
        = (c0 :: rest) ++ additions)
    ∧ (format_known_editors ((c0 :: rest).getLast (by simp)) file line col
        = none →
      perform_substitutions (c0 :: rest) file line col
        = (c0 :: rest) ++ [file]) := by
  constructor
  · intro additions hfmt
    simp only [perform_substitutions]
    rw [if_neg (by rw [h]; exact Bool.noConfusion), hfmt]
  · intro hfmt
    simp only [perform_substitutions]
    rw [if_neg (by rw [h]; exact Bool.noConfusion), hfmt]

/-- Counterexample to C4 as stated: the base name of "/usr/bin/vim" is
"vim", a table entry, yet the code appends the bare file path because it
matches the whole token against the table; the claimed vim-style arguments
are not produced. -/
theorem perform_substitutions_no_basename :
    perform_substitutions ["/usr/bin/vim".toList] "/tmp/x.txt".toList 3 5
      = ["/usr/bin/vim".toList, "/tmp/x.txt".toList]
    ∧ format_known_editors "vim".toList "/tmp/x.txt".toList 3 5
      = some ["+3".toList, "+norm! 5|".toList, "/tmp/x.txt".toList]
    ∧ perform_substitutions ["/usr/bin/vim".toList] "/tmp/x.txt".toList 3 5
      ≠ ["/usr/bin/vim".toList, "+3".toList, "+norm! 5|".toList,
         "/tmp/x.txt".toList] := by
  refine ⟨by decide, by decide, by decide⟩

/-- Witness for C4: the spec's own examples, templates "vim" and "cat". -/
theorem perform_substitutions_known_editor_witness :
    perform_substitutions ["vim".toList] "/tmp/x.txt".toList 3 5
      = ["vim".toList, "+3".toList, "+norm! 5|".toList, "/tmp/x.txt".toList]
    ∧ perform_substitutions ["cat".toList] "/tmp/x.txt".toList 3 5
      = ["cat".toList, "/tmp/x.txt".toList] :=
  ⟨((perform_substitutions_known_editor "vim".toList [] "/tmp/x.txt".toList
      3 5 rfl).1 ["+3".toList, "+norm! 5|".toList, "/tmp/x.txt".toList]
      (by decide)).trans (by decide),
   ((perform_substitutions_known_editor "cat".toList [] "/tmp/x.txt".toList
      3 5 rfl).2 (by decide)).trans (by decide)⟩

/-- Helper for C9: the exact value of the idle counter along any prefix,
relative to a starting count `c` that the finished-events never drive below
zero. -/
theorem aliveCount_aux (evs : List ThreadStatusEv) (c : Nat)
    (h : ∀ n, countFinished (evs.take n) ≤ c + countStarted (evs.take n)) :
    ∀ n, (((evs.take n).foldl idleStep c : Nat) : Int)
      = c + countStarted (evs.take n) - countFinished (evs.take n) := by
  induction evs generalizing c with
  | nil =>
    intro n
    simp [countStarted, countFinished]
  | cons ev evs' ih =>
    intro n
    match n with
    | 0 => simp [countStarted, countFinished]
    | Nat.succ m =>
      rw [List.take_succ_cons, List.foldl_cons]
      cases ev with
      | started =>
        have h' : ∀ k, countFinished (evs'.take k)
            ≤ (c + 1) + countStarted (evs'.take k) := by
          intro k
          have hk := h (k + 1)
          simp [List.take_succ_cons, countStarted, countFinished,
            List.count_cons] at hk ⊢
          omega
        have hm := ih (c + 1) h' m
        simp only [idleStep]
        simp [countStarted, countFinished, List.count_cons] at hm ⊢
        omega
      | finished =>
        have hc : 1 ≤ c := by
          have h1 := h 1
          simp [countStarted, countFinished, List.count_cons] at h1
          omega
        have h' : ∀ k, countFinished (evs'.take k)
            ≤ (c - 1) + countStarted (evs'.take k) := by
          intro k
          have hk := h (k + 1)
          simp [List.take_succ_cons, countStarted, countFinished,
            List.count_cons] at hk ⊢
          omega
        have hm := ih (c - 1) h' m
        simp only [idleStep]
        simp [countStarted, countFinished, List.count_cons] at hm ⊢
        omega

/-- Claim C9: starting from zero and stepping the counter exactly as
`idle_timeout` does (+1 on SessionStarted, -1 on SessionFinished), every
event sequence whose prefixes all contain at least as many Started as
Finished keeps the count equal to the exact difference — never below zero —
and every decrement hits a strictly positive count (the usize subtraction
never underflows). -/
theorem idle_count_nonneg (evs : List ThreadStatusEv)
    (h : ∀ n, countFinished (evs.take n) ≤ countStarted (evs.take n)) :
    (∀ n, (aliveCount (evs.take n) : Int)
      = countStarted (evs.take n) - countFinished (evs.take n))
    ∧ (∀ n, evs[n]? = some ThreadStatusEv.finished →
      0 < aliveCount (evs.take n)) := by
  have key := aliveCount_aux evs 0 (by simpa using h)
  have keyA : ∀ n, (aliveCount (evs.take n) : Int)
      = countStarted (evs.take n) - countFinished (evs.take n) := by
    intro n
    have := key n
    simpa [aliveCount] using this
  refine ⟨keyA, ?_⟩
  intro n hget
  have hsplit : evs.take (n + 1) = evs.take n ++ [ThreadStatusEv.finished] := by
    rw [List.take_succ, hget]
    rfl
  have h1 := h (n + 1)
  rw [hsplit] at h1
  have kA := keyA n
  simp [countStarted, countFinished, List.count_append, List.count_cons,
    List.count_nil] at h1 kA
  omega

/-- Witness for C9: a session pair starting and finishing in order keeps
the exact count 2 - 2 = 0 at the end. -/
theorem idle_count_nonneg_witness :
    (aliveCount ([ThreadStatusEv.started, ThreadStatusEv.started,
        ThreadStatusEv.finished, ThreadStatusEv.finished].take 4) : Int)
      = countStarted ([ThreadStatusEv.started, ThreadStatusEv.started,
          ThreadStatusEv.finished, ThreadStatusEv.finished].take 4)
        - countFinished ([ThreadStatusEv.started, ThreadStatusEv.started,
            ThreadStatusEv.finished, ThreadStatusEv.finished].take 4) :=
  (idle_count_nonneg [ThreadStatusEv.started, ThreadStatusEv.started,
      ThreadStatusEv.finished, ThreadStatusEv.finished] (by
    intro n
    match n with
    | 0 => decide
    | 1 => decide
    | 2 => decide
    | 3 => decide
    | Nat.succ (Nat.succ (Nat.succ (Nat.succ m))) =>
      rw [List.take_of_length_le (by simp)]
      decide)).1 4

/-! ### Helper lemmas for the cursor mapper (claim C5) -/

/-- Every scalar value is below 0xD800 or above 0xDFFF and below 0x110000. -/
theorem char_toNat_valid (c : Char) :
    c.toNat < 0xD800 ∨ (0xDFFF < c.toNat ∧ c.toNat < 0x110000) := by
  rcases c.valid with h | ⟨h1, h2⟩
  · exact Or.inl h
  · exact Or.inr ⟨h1, h2⟩

theorem encodeUtf16_nil : encodeUtf16 [] = [] := rfl

theorem encodeUtf16_cons (c : Char) (l : List Char) :
    encodeUtf16 (c :: l) = encodeUtf16Char c ++ encodeUtf16 l := by
  simp [encodeUtf16]

theorem utf16Len_nil : utf16Len [] = 0 := rfl

theorem utf16Len_cons (c : Char) (l : List Char) :
    utf16Len (c :: l) = utf16LenChar c + utf16Len l := by
  simp [utf16Len]

theorem utf8Len_nil : utf8Len [] = 0 := rfl

theorem utf8Len_cons (c : Char) (l : List Char) :
    utf8Len (c :: l) = utf8LenChar c + utf8Len l := by
  simp [utf8Len]

theorem encodeUtf16Char_length (c : Char) :
    (encodeUtf16Char c).length = utf16LenChar c := by
  unfold encodeUtf16Char utf16LenChar
  by_cases h : c.toNat < 0x10000 <;> simp [h]

theorem encodeUtf16_length (l : List Char) :
    (encodeUtf16 l).length = utf16Len l := by
  induction l with
  | nil => rfl
  | cons c l' ih =>
    rw [encodeUtf16_cons, List.length_append, encodeUtf16Char_length,
      utf16Len_cons, ih]

/-- The newline scalar encodes to the single unit 10. -/
theorem encodeUtf16Char_nl : encodeUtf16Char '\n' = [10] := by decide

/-- A character below 0x10000 encodes to its own single unit. -/
theorem encodeUtf16Char_bmp (c : Char) (h : c.toNat < 0x10000) :
    encodeUtf16Char c = [c.toNat] := by
  unfold encodeUtf16Char
  rw [if_pos h]

/-- A character at or above 0x10000 encodes to its surrogate pair. -/
theorem encodeUtf16Char_supp (c : Char) (h : 0x10000 ≤ c.toNat) :
    encodeUtf16Char c
      = [0xD800 + (c.toNat - 0x10000) / 0x400,
         0xDC00 + (c.toNat - 0x10000) % 0x400] := by
  unfold encodeUtf16Char
  rw [if_neg (by omega)]

/-- Bounds of the high surrogate produced for a supplementary character. -/
theorem high_surrogate_bounds (c : Char) (h : 0x10000 ≤ c.toNat) :
    0xD800 ≤ 0xD800 + (c.toNat - 0x10000) / 0x400
    ∧ 0xD800 + (c.toNat - 0x10000) / 0x400 < 0xDC00 := by
  have hv := char_toNat_valid c
  have hb : c.toNat - 0x10000 < 0x100000 := by omega
  have : (c.toNat - 0x10000) / 0x400 < 0x400 := by omega
  omega

/-- Bounds of the low surrogate produced for a supplementary character. -/
theorem low_surrogate_bounds (c : Char) :
    0xDC00 ≤ 0xDC00 + (c.toNat - 0x10000) % 0x400
    ∧ 0xDC00 + (c.toNat - 0x10000) % 0x400 ≤ 0xDFFF := by
  have : (c.toNat - 0x10000) % 0x400 < 0x400 := Nat.mod_lt _ (by omega)
  omega

/-- A character other than newline never contributes the unit 10. -/
theorem encodeUtf16Char_ne_nl (c : Char) (h : c ≠ '\n') :
    ∀ u ∈ encodeUtf16Char c, u ≠ 10 := by
  intro u hu
  unfold encodeUtf16Char at hu
  by_cases hb : c.toNat < 0x10000
  · rw [if_pos hb] at hu
    simp only [List.mem_singleton] at hu
    subst hu
    intro h10
    apply h
    have : c.toNat = ('\n').toNat := by rw [h10]; rfl
    have hval : c.val = ('\n').val := by
      have h1 : c.val.toNat = ('\n').val.toNat := this
      exact UInt32.toNat.inj h1
    exact Char.ext hval
  · rw [if_neg hb] at hu
    have hs := high_surrogate_bounds c (by omega)
    have ls := low_surrogate_bounds c
    simp only [List.mem_cons, List.mem_singleton, List.not_mem_nil,
      or_false] at hu
    rcases hu with hu | hu <;> omega

/-- Step of the scanning loop before the offset, on a newline unit. -/
theorem loopGo_before_nl (us : List Nat) (rem line col : Nat)
    (ll : List Nat) :
    loopGo (10 :: us) (rem + 1) line col ll
      = loopGo us rem (line + 1) 1 [] := by
  simp [loopGo]

/-- Step of the scanning loop before the offset, on a non-newline unit. -/
theorem loopGo_before_other (u : Nat) (hu : u ≠ 10) (us : List Nat)
    (rem line col : Nat) (ll : List Nat) :
    loopGo (u :: us) (rem + 1) line col ll
      = loopGo us rem line (col + 1) (ll ++ [u]) := by
  simp [loopGo, hu]

/-- After the offset the loop only extends the line buffer, stopping at a
newline unit. -/
theorem loopGo_after (us : List Nat) (line col : Nat) (ll : List Nat) :
    loopGo us 0 line col ll
      = (line, col, ll ++ us.takeWhile (fun u => u != 10)) := by
  induction us generalizing ll with
  | nil => simp [loopGo]
  | cons u us' ih =>
    by_cases hu : u = 10
    · subst hu
      simp [loopGo, List.takeWhile_cons]
    · rw [List.takeWhile_cons]
      simp only [bne_iff_ne, ne_eq, hu, not_false_eq_true, if_true]
      have : loopGo (u :: us') 0 line col ll = loopGo us' 0 line col (ll ++ [u]) := by
        simp [loopGo, hu]
      rw [this, ih]
      simp

/-- A scalar value of 10 is the newline character. -/
theorem char_eq_nl (c : Char) (h : c.toNat = 10) : c = '\n' := by
  have h1 : c.val.toNat = ('\n').val.toNat := h
  exact Char.ext (UInt32.toNat.inj h1)

theorem afterLastNl_of_not_mem (p : List Char) (h : '\n' ∉ p) :
    afterLastNl p = p := by
  cases p with
  | nil => rfl
  | cons c p' =>
    have hc : ¬c = '\n' := fun he => h (by rw [he]; exact List.mem_cons_self _ _)
    have hp : '\n' ∉ p' := fun hm => h (List.mem_cons_of_mem _ hm)
    simp [afterLastNl, hp, hc]

theorem countNl_of_not_mem (p : List Char) (h : '\n' ∉ p) :
    countNl p = 0 :=
  List.count_eq_zero.mpr h

/-- Before-phase of the scanning loop over a newline-free chunk: the line
number is unchanged, the column advances by the chunk's UTF-16 length and
the line buffer extends by the chunk's units. -/
theorem loopGo_before_not_mem (p : List Char) (hm : '\n' ∉ p)
    (k : Nat) (rest : List Nat) :
    ∀ line col ll,
    loopGo (encodeUtf16 p ++ rest) (utf16Len p + k) line col ll
      = loopGo rest k line (col + utf16Len p) (ll ++ encodeUtf16 p) := by
  induction p with
  | nil =>
    intro line col ll
    simp [encodeUtf16_nil, utf16Len_nil]
  | cons c p' ih =>
    intro line col ll
    have hc : ¬c = '\n' := fun he => hm (by rw [he]; exact List.mem_cons_self _ _)
    have hp : '\n' ∉ p' := fun hx => hm (List.mem_cons_of_mem _ hx)
    rw [encodeUtf16_cons, List.append_assoc]
    by_cases hb : c.toNat < 0x10000
    · have hu : c.toNat ≠ 10 := fun h10 => hc (char_eq_nl c h10)
      rw [encodeUtf16Char_bmp c hb]
      have hrem : utf16Len (c :: p') + k = (utf16Len p' + k) + 1 := by
        rw [utf16Len_cons]
        unfold utf16LenChar
        rw [if_pos hb]
        omega
      rw [hrem, List.singleton_append, loopGo_before_other _ hu, ih hp _ _ _]
      have hcol : col + 1 + utf16Len p' = col + utf16Len (c :: p') := by
        rw [utf16Len_cons]
        unfold utf16LenChar
        rw [if_pos hb]
        omega
      rw [hcol]
      simp [List.append_assoc]
    · have hs := high_surrogate_bounds c (by omega)
      have ls := low_surrogate_bounds c
      rw [encodeUtf16Char_supp c (by omega)]
      have hrem : utf16Len (c :: p') + k = ((utf16Len p' + k) + 1) + 1 := by
        rw [utf16Len_cons]
        unfold utf16LenChar
        rw [if_neg hb]
        omega
      rw [hrem]
      rw [show ([0xD800 + (c.toNat - 0x10000) / 0x400,
          0xDC00 + (c.toNat - 0x10000) % 0x400] : List Nat)
          ++ (encodeUtf16 p' ++ rest)
        = (0xD800 + (c.toNat - 0x10000) / 0x400)
          :: ((0xDC00 + (c.toNat - 0x10000) % 0x400)
            :: (encodeUtf16 p' ++ rest)) from rfl]
      rw [loopGo_before_other _ (by omega), loopGo_before_other _ (by omega),
        ih hp _ _ _]
      have hcol : col + 1 + 1 + utf16Len p' = col + utf16Len (c :: p') := by
        rw [utf16Len_cons]
        unfold utf16LenChar
        rw [if_neg hb]
        omega
      rw [hcol]
      simp [List.append_assoc]

/-- Before-phase of the scanning loop over a chunk containing a newline:
the initial column and buffer are forgotten; afterwards the column counts
the UTF-16 units after the chunk's last newline and the buffer holds their
units. -/
theorem loopGo_before_mem (p : List Char) (hm : '\n' ∈ p)
    (k : Nat) (rest : List Nat) :
    ∀ line col ll,
    loopGo (encodeUtf16 p ++ rest) (utf16Len p + k) line col ll
      = loopGo rest k (line + countNl p) (utf16Len (afterLastNl p) + 1)
          (encodeUtf16 (afterLastNl p)) := by
  induction p with
  | nil => exact absurd hm (List.not_mem_nil _)
  | cons c p' ih =>
    intro line col ll
    rw [encodeUtf16_cons, List.append_assoc]
    by_cases hc : c = '\n'
    · subst hc
      rw [encodeUtf16Char_nl]
      have h1 : utf16LenChar '\n' = 1 := by decide
      have hrem : utf16Len ('\n' :: p') + k = (utf16Len p' + k) + 1 := by
        rw [utf16Len_cons, h1]
        omega
      rw [hrem, List.singleton_append, loopGo_before_nl]
      by_cases hp : '\n' ∈ p'
      · rw [ih hp (line + 1) 1 []]
        have hA : afterLastNl ('\n' :: p') = afterLastNl p' := by
          simp [afterLastNl, hp]
        have hcount : countNl ('\n' :: p') = countNl p' + 1 := by
          simp [countNl]
        rw [hA, hcount]
        congr 1
        omega
      · rw [loopGo_before_not_mem p' hp k rest (line + 1) 1 []]
        have hA : afterLastNl ('\n' :: p') = p' := by
          simp [afterLastNl, hp]
        have hcount : countNl ('\n' :: p') = 1 := by
          simp [countNl, List.count_eq_zero.mpr hp]
        rw [hA, hcount, List.nil_append]
        congr 1
        omega
    · have hp : '\n' ∈ p' := by
        rcases List.mem_cons.mp hm with he | hp
        · exact absurd he.symm hc
        · exact hp
      have hA : afterLastNl (c :: p') = afterLastNl p' := by
        simp [afterLastNl, hp]
      have hcount : countNl (c :: p') = countNl p' := by
        simp [countNl, List.count_cons, hc]
      rw [hA, hcount]
      by_cases hb : c.toNat < 0x10000
      · have hu : c.toNat ≠ 10 := fun h10 => hc (char_eq_nl c h10)
        rw [encodeUtf16Char_bmp c hb]
        have hrem : utf16Len (c :: p') + k = (utf16Len p' + k) + 1 := by
          rw [utf16Len_cons]
          unfold utf16LenChar
          rw [if_pos hb]
          omega
        rw [hrem, List.singleton_append, loopGo_before_other _ hu,
          ih hp line (col + 1) (ll ++ [c.toNat])]
      · have hs := high_surrogate_bounds c (by omega)
        have ls := low_surrogate_bounds c
        rw [encodeUtf16Char_supp c (by omega)]
        have hrem : utf16Len (c :: p') + k = ((utf16Len p' + k) + 1) + 1 := by
          rw [utf16Len_cons]
          unfold utf16LenChar
          rw [if_neg hb]
          omega
        rw [hrem]
        rw [show ([0xD800 + (c.toNat - 0x10000) / 0x400,
            0xDC00 + (c.toNat - 0x10000) % 0x400] : List Nat)
            ++ (encodeUtf16 p' ++ rest)
          = (0xD800 + (c.toNat - 0x10000) / 0x400)
            :: ((0xDC00 + (c.toNat - 0x10000) % 0x400)
              :: (encodeUtf16 p' ++ rest)) from rfl]
        rw [loopGo_before_other _ (by omega), loopGo_before_other _ (by omega),
          ih hp line (col + 1 + 1) _]

theorem encodeUtf16_append (l1 l2 : List Char) :
    encodeUtf16 (l1 ++ l2) = encodeUtf16 l1 ++ encodeUtf16 l2 := by
  simp [encodeUtf16]

theorem utf16Len_pos (l : List Char) (h : l ≠ []) : 0 < utf16Len l := by
  cases l with
  | nil => exact absurd rfl h
  | cons c l' =>
    rw [utf16Len_cons]
    unfold utf16LenChar
    split <;> omega

theorem decodeUtf16_nil : decodeUtf16 [] = [] := rfl

theorem decodeUtf16_cons_bmp (u : Nat) (hu : u < 0xD800 ∨ 0xDFFF < u)
    (us : List Nat) :
    decodeUtf16 (u :: us) = Except.ok (Char.ofNat u) :: decodeUtf16 us := by
  rw [decodeUtf16.eq_def]
  dsimp only
  rw [if_pos hu]

theorem decodeUtf16_cons_pair (u u2 : Nat) (h1 : 0xD800 ≤ u)
    (h2 : u < 0xDC00) (h3 : 0xDC00 ≤ u2) (h4 : u2 ≤ 0xDFFF) (us : List Nat) :
    decodeUtf16 (u :: u2 :: us)
      = Except.ok (Char.ofNat (0x10000 + (u - 0xD800) * 0x400 + (u2 - 0xDC00)))
        :: decodeUtf16 us := by
  rw [decodeUtf16.eq_def]
  dsimp only
  rw [if_neg (by omega), if_pos h2, if_pos ⟨h3, h4⟩]

theorem decodeUtf16_single_high (u : Nat) (h1 : 0xD800 ≤ u)
    (h2 : u < 0xDC00) :
    decodeUtf16 [u] = [Except.error u] := by
  rw [decodeUtf16.eq_def]
  dsimp only
  rw [if_neg (by omega), if_pos h2]

/-- Decoding the encoding of a string prefixes any tail decode with the
string's scalars, each decoded back to itself. -/
theorem decodeUtf16_enc_append (l : List Char) (tail : List Nat) :
    decodeUtf16 (encodeUtf16 l ++ tail)
      = l.map Except.ok ++ decodeUtf16 tail := by
  induction l with
  | nil => simp [encodeUtf16_nil]
  | cons c l' ih =>
    rw [encodeUtf16_cons, List.append_assoc]
    by_cases hb : c.toNat < 0x10000
    · rw [encodeUtf16Char_bmp c hb, List.singleton_append,
        decodeUtf16_cons_bmp c.toNat (by have := char_toNat_valid c; omega),
        ih, Char.ofNat_toNat]
      simp
    · have hs := high_surrogate_bounds c (by omega)
      have ls := low_surrogate_bounds c
      rw [encodeUtf16Char_supp c (by omega)]
      rw [show ([0xD800 + (c.toNat - 0x10000) / 0x400,
          0xDC00 + (c.toNat - 0x10000) % 0x400] : List Nat)
          ++ (encodeUtf16 l' ++ tail)
        = (0xD800 + (c.toNat - 0x10000) / 0x400)
          :: ((0xDC00 + (c.toNat - 0x10000) % 0x400)
            :: (encodeUtf16 l' ++ tail)) from rfl]
      rw [decodeUtf16_cons_pair _ _ hs.1 hs.2 ls.1 ls.2, ih]
      have harith : 0x10000
          + ((0xD800 + (c.toNat - 0x10000) / 0x400) - 0xD800) * 0x400
          + ((0xDC00 + (c.toNat - 0x10000) % 0x400) - 0xDC00) = c.toNat := by
        have hdm := Nat.div_add_mod (c.toNat - 0x10000) 0x400
        omega
      rw [harith, Char.ofNat_toNat]
      simp

/-- `String::from_utf16` inverts the encoding. -/
theorem fromUtf16_enc (l : List Char) :
    fromUtf16 (encodeUtf16 l) = some l := by
  unfold fromUtf16
  rw [show encodeUtf16 l = encodeUtf16 l ++ [] by simp,
    decodeUtf16_enc_append, decodeUtf16_nil, List.append_nil]
  rw [if_pos]
  · congr 1
    induction l with
    | nil => rfl
    | cons c l' ih => simpa [Except.toOption] using ih
  · induction l with
    | nil => rfl
    | cons c l' ih => simp [Except.toOption]

/-- `String::from_utf16` fails on the encoding of a string followed by an
unpaired high surrogate. -/
theorem fromUtf16_enc_high (l : List Char) (u : Nat) (h1 : 0xD800 ≤ u)
    (h2 : u < 0xDC00) :
    fromUtf16 (encodeUtf16 l ++ [u]) = none := by
  unfold fromUtf16
  rw [decodeUtf16_enc_append, decodeUtf16_single_high u h1 h2]
  rw [if_neg]
  intro hall
  have := List.all_eq_true.mp hall (Except.error u) (by simp)
  simp [Except.toOption] at this

/-- `rposition` of the last Ok over Ok-scalars followed by one error. -/
theorem rpositionOk_map_ok_err (l : List Char) (u : Nat) :
    rpositionOk (l.map Except.ok ++ [Except.error u])
      = if l = [] then none else some (l.length - 1) := by
  induction l with
  | nil => simp [rpositionOk, Except.toOption]
  | cons c l' ih =>
    rw [List.map_cons, List.cons_append]
    simp only [rpositionOk, ih]
    cases l' with
    | nil => simp [Except.toOption]
    | cons c' l'' => simp

/-- Claim C5 (amended): for a surrogate-pair character that is NOT the
first character of its line, the offset falling strictly inside the pair
resolves to the position of the start of that character — identical to the
result for the offset at the pair's first code unit — namely line
1 + (newlines before it) and column (UTF-8 length of its line's prefix) + 1.
(When the pair opens its line the mid-pair offset instead yields column 3;
see the counterexample.) -/
theorem utf16_offset_surrogate_middle (pre post : List Char) (c : Char)
    (hc : 0x10000 ≤ c.toNat) (hA : afterLastNl pre ≠ []) :
    utf16_offset_to_utf8_line_col (utf16Len pre + 1) (pre ++ c :: post)
      = utf16_offset_to_utf8_line_col (utf16Len pre) (pre ++ c :: post)
    ∧ utf16_offset_to_utf8_line_col (utf16Len pre) (pre ++ c :: post)
      = (1 + countNl pre, utf8Len (afterLastNl pre) + 1) := by
  have hs := high_surrogate_bounds c hc
  have ls := low_surrogate_bounds c
  have hkpos : 0 < utf16Len (afterLastNl pre) := utf16Len_pos _ hA
  set u1 := 0xD800 + (c.toNat - 0x10000) / 0x400 with hu1d
  set u2 := 0xDC00 + (c.toNat - 0x10000) % 0x400 with hu2d
  have hb1 : (u1 != 10) = true := by
    rw [bne_iff_ne]
    omega
  have hb2 : (u2 != 10) = true := by
    rw [bne_iff_ne]
    omega
  have henc : encodeUtf16 (pre ++ c :: post)
      = encodeUtf16 pre ++ (u1 :: u2 :: encodeUtf16 post) := by
    rw [encodeUtf16_append, encodeUtf16_cons, encodeUtf16Char_supp c hc]
    rfl
  have hloop : ∀ δ : Nat,
      loopGo (encodeUtf16 (pre ++ c :: post)) (utf16Len pre + δ) 1 1 []
        = loopGo (u1 :: u2 :: encodeUtf16 post) δ
            (1 + countNl pre) (utf16Len (afterLastNl pre) + 1)
            (encodeUtf16 (afterLastNl pre)) := by
    intro δ
    rw [henc]
    by_cases hm : '\n' ∈ pre
    · rw [loopGo_before_mem pre hm δ _ 1 1 []]
    · rw [loopGo_before_not_mem pre hm δ _ 1 1 [],
        afterLastNl_of_not_mem pre hm, countNl_of_not_mem pre hm,
        List.nil_append]
      have e1 : 1 + utf16Len pre = utf16Len pre + 1 := by omega
      rw [e1]
  have hzero : loopGo (encodeUtf16 (pre ++ c :: post)) (utf16Len pre) 1 1 []
      = (1 + countNl pre, utf16Len (afterLastNl pre) + 1,
         encodeUtf16 (afterLastNl pre)
           ++ (u1 :: u2 :: (encodeUtf16 post).takeWhile (fun u => u != 10))) := by
    have h0 := hloop 0
    rw [Nat.add_zero] at h0
    rw [h0, loopGo_after, List.takeWhile_cons, if_pos hb1,
      List.takeWhile_cons, if_pos hb2]
  have hone : loopGo (encodeUtf16 (pre ++ c :: post)) (utf16Len pre + 1) 1 1 []
      = (1 + countNl pre, utf16Len (afterLastNl pre) + 1 + 1,
         (encodeUtf16 (afterLastNl pre) ++ [u1])
           ++ (u2 :: (encodeUtf16 post).takeWhile (fun u => u != 10))) := by
    rw [hloop 1, show (1 : Nat) = 0 + 1 from rfl,
      loopGo_before_other u1 (by omega), loopGo_after,
      List.takeWhile_cons, if_pos hb2]
  have c0 : utf16_offset_to_utf8_line_col (utf16Len pre) (pre ++ c :: post)
      = (1 + countNl pre, utf8Len (afterLastNl pre) + 1) := by
    simp only [utf16_offset_to_utf8_line_col]
    rw [hzero]
    dsimp only
    rw [if_neg (by omega)]
    have htake : (encodeUtf16 (afterLastNl pre)
          ++ (u1 :: u2 :: (encodeUtf16 post).takeWhile (fun u => u != 10))).take
          (utf16Len (afterLastNl pre) + 1 - 1)
        = encodeUtf16 (afterLastNl pre) := by
      rw [show utf16Len (afterLastNl pre) + 1 - 1
          = utf16Len (afterLastNl pre) from by omega,
        ← encodeUtf16_length (afterLastNl pre), List.take_left]
    rw [htake, fromUtf16_enc]
  have c1 : utf16_offset_to_utf8_line_col (utf16Len pre + 1) (pre ++ c :: post)
      = (1 + countNl pre, utf8Len (afterLastNl pre) + 1) := by
    simp only [utf16_offset_to_utf8_line_col]
    rw [hone]
    dsimp only
    rw [if_neg (by omega)]
    have hlen : (encodeUtf16 (afterLastNl pre) ++ [u1]).length
        = utf16Len (afterLastNl pre) + 1 := by
      rw [List.length_append, encodeUtf16_length]
      rfl
    have htake : ((encodeUtf16 (afterLastNl pre) ++ [u1])
          ++ (u2 :: (encodeUtf16 post).takeWhile (fun u => u != 10))).take
          (utf16Len (afterLastNl pre) + 1 + 1 - 1)
        = encodeUtf16 (afterLastNl pre) ++ [u1] := by
      rw [show utf16Len (afterLastNl pre) + 1 + 1 - 1
          = utf16Len (afterLastNl pre) + 1 from by omega,
        ← hlen, List.take_left]
    rw [htake, fromUtf16_enc_high _ _ (by omega) (by omega)]
    dsimp only
    rw [decodeUtf16_enc_append, decodeUtf16_single_high _ (by omega) (by omega),
      rpositionOk_map_ok_err, if_neg hA]
    dsimp only
    have hlp : (afterLastNl pre).length - 1 + 1 = (afterLastNl pre).length := by
      have := List.length_pos.mpr hA
      omega
    rw [hlp]
    have htake2 : ((afterLastNl pre).map Except.ok
          ++ [Except.error u1]).take (afterLastNl pre).length
        = (afterLastNl pre).map Except.ok := by
      rw [show (afterLastNl pre).length
          = ((afterLastNl pre).map Except.ok).length
          from (List.length_map _ _).symm, List.take_left]
    rw [htake2]
    have hsum : (((afterLastNl pre).map Except.ok).map decodeResultWidth).sum
        = utf8Len (afterLastNl pre) := by
      rw [List.map_map,
        show (decodeResultWidth ∘ Except.ok) = (fun x => utf8LenChar x)
          from funext fun x => rfl]
      rfl
    rw [hsum]
  exact ⟨c1.trans c0.symm, c0⟩

/-- Counterexample to C5 as stated: for a text consisting of the single
supplementary character U+10617 the surrogate pair occupies offsets 0-1;
offset 1 falls strictly inside the pair, yet the function returns (1, 3)
(the backtracking path keeps the whole error list when no scalar precedes
the cut pair on the line), not the (1, 1) it returns at the pair's first
code unit. -/
theorem utf16_offset_surrogate_middle_line_start :
    utf16_offset_to_utf8_line_col 1 [Char.ofNat 0x10617] = (1, 3)
    ∧ utf16_offset_to_utf8_line_col 0 [Char.ofNat 0x10617] = (1, 1)
    ∧ utf16_offset_to_utf8_line_col 1 [Char.ofNat 0x10617]
      ≠ utf16_offset_to_utf8_line_col 0 [Char.ofNat 0x10617] := by
  refine ⟨by decide, by decide, by decide⟩

/-- Witness for C5 on the spec's own text: offsets 10 and 11 both map to
(1, 11), the start of the U+10617 character, and offset 12 maps to
(1, 15). -/
theorem utf16_offset_surrogate_middle_witness :
    utf16_offset_to_utf8_line_col 11
      ("linear A: ".toList ++ Char.ofNat 0x10617 :: " (U+10617)".toList)
    = utf16_offset_to_utf8_line_col 10
      ("linear A: ".toList ++ Char.ofNat 0x10617 :: " (U+10617)".toList)
    ∧ utf16_offset_to_utf8_line_col 10
        ("linear A: ".toList ++ Char.ofNat 0x10617 :: " (U+10617)".toList)
      = (1, 11)
    ∧ utf16_offset_to_utf8_line_col 12
        ("linear A: ".toList ++ Char.ofNat 0x10617 :: " (U+10617)".toList)
      = (1, 15) := by
  have h := utf16_offset_surrogate_middle "linear A: ".toList
    " (U+10617)".toList (Char.ofNat 0x10617) (by decide) (by decide)
  have h10 : utf16Len "linear A: ".toList = 10 := by decide
  rw [h10] at h
  exact ⟨h.1, by decide, by decide⟩

end GhostTextAny
